import Mathlib

/-
Verification of the marching-squares contour pipeline (tema1_par.c).

The C program is shallowly embedded: pixel buffers are total functions
from flat indices to pixels, the binary grid is a total function from a
pair of indices to a byte value, and every `for` loop is a fold
(`forRange`).  The N parallel workers synchronize with barriers and write
disjoint index ranges inside each stage (or write identical values, for
the corner cell), so a stage is modelled as the sequential composition of
the per-thread bodies in thread-id order; this is the standard
data-race-free linearization of barrier-partitioned code.
Machine integers: pixel channels and grid cells are `unsigned char` in C
and every value stored by the program fits in 0..255; the two places
where a wider intermediate is truncated to `unsigned char` (the channel
average and the configuration index k) carry an explicit `% 256`.
-/
namespace Tema1

def STEP : Nat := 8

def SIGMA : Nat := 200

def RESCALE_X : Nat := 2048

def RESCALE_Y : Nat := 2048

def CONTOUR_CONFIG_COUNT : Nat := 16

structure ppm_pixel where
  red : Nat
  green : Nat
  blue : Nat
deriving DecidableEq

abbrev PixMap := Nat → ppm_pixel

structure ppm_image where
  x : Nat
  y : Nat
  data : PixMap

abbrev Grid := Nat → Nat → Nat

abbrev Bicubic := ppm_image → Nat → Nat → ppm_pixel

/-- Fold of a loop body over the index range `[s, s+n)`, in increasing
order: the embedding of `for (i = s; i < s + n; i++) acc = f i acc;`. -/
def forRange (f : Nat → α → α) : Nat → Nat → α → α
  | _, 0, a => a
  | s, n + 1, a => forRange f (s + 1) n (f s a)

/-- Start of worker t's half-open range for an extent e, as computed at
lines 87, 113, 132, 163, 204 of tema1_par.c. -/
def partStart (e N t : Nat) : Nat := t * (e / N)

/-- End of worker t's half-open range for an extent e, as computed at
lines 88, 114, 133, 164, 205 of tema1_par.c. -/
def partEnd (e N t : Nat) : Nat := (t + 1) * (e / N)

/-- Channel average truncated to `unsigned char`, line 96 of tema1_par.c:
`(curr_pixel.red + curr_pixel.green + curr_pixel.blue) / 3` computed in
`int` and stored in an `unsigned char`. -/
def pixel_avg (px : ppm_pixel) : Nat :=
  ((px.red + px.green + px.blue) / 3) % 256

/-- The spec-side average, without the `unsigned char` conversion (the two
agree whenever the channels are genuine byte values). -/
def avg3 (px : ppm_pixel) : Nat := (px.red + px.green + px.blue) / 3

/-- All three channels are byte values, as guaranteed for any pixel
decoded from a PPM file. -/
def chOk (px : ppm_pixel) : Prop :=
  px.red ≤ 255 ∧ px.green ≤ 255 ∧ px.blue ≤ 255

instance (px : ppm_pixel) : Decidable (chOk px) := by
  unfold chOk; infer_instance

/-- Thresholding of lines 98-105: 0 when the average exceeds SIGMA,
1 otherwise. -/
def threshold (px : ppm_pixel) : Nat :=
  if SIGMA < pixel_avg px then 0 else 1

/-- Value sampled for the interior grid point (i,j), line 94-96. -/
def interiorVal (image : ppm_image) (i j : Nat) : Nat :=
  threshold (image.data (i * STEP * image.y + j * STEP))

/-- Value sampled for the right-edge grid point (i,q), line 118-120.
Note the pixel offset uses `image->x - 1` as the in-row offset. -/
def rightVal (image : ppm_image) (i : Nat) : Nat :=
  threshold (image.data (i * STEP * image.y + image.x - 1))

/-- Value sampled for the bottom-edge grid point (p,j), line 137-139. -/
def bottomVal (image : ppm_image) (j : Nat) : Nat :=
  threshold (image.data ((image.x - 1) * image.y + j * STEP))

/-- Single store `grid[i][j] = v`. -/
def gwrite (g : Grid) (i j v : Nat) : Grid :=
  fun a b => if a = i ∧ b = j then v else g a b

/-- One worker's body of `sample_grid` (lines 82-152): the interior block
over its row range, the unconditional corner store `grid[p][q] = 0`, the
right-edge column over the same row range, and the bottom-edge row over
its column range, in program order. -/
def sample_grid (image : ppm_image) (grid : Grid) (thread_id N : Nat) : Grid :=
  forRange
    (fun j g => gwrite g (image.x / STEP) j (bottomVal image j))
    (partStart (image.y / STEP) N thread_id)
    (partEnd (image.y / STEP) N thread_id - partStart (image.y / STEP) N thread_id)
    (forRange
      (fun i g => gwrite g i (image.y / STEP) (rightVal image i))
      (partStart (image.x / STEP) N thread_id)
      (partEnd (image.x / STEP) N thread_id - partStart (image.x / STEP) N thread_id)
      (gwrite
        (forRange
          (fun i g => forRange (fun j g => gwrite g i j (interiorVal image i j)) 0 (image.y / STEP) g)
          (partStart (image.x / STEP) N thread_id)
          (partEnd (image.x / STEP) N thread_id - partStart (image.x / STEP) N thread_id)
          grid)
        (image.x / STEP) (image.y / STEP) 0))

/-- The sampling stage: all N workers run `sample_grid` on the shared
grid; their writes are disjoint except the corner cell, which every
worker sets to the same value, so the stage is the fold of the
per-thread bodies. -/
def sampleStage (image : ppm_image) (grid : Grid) (N : Nat) : Grid :=
  forRange (fun t g => sample_grid image g t N) 0 N grid

/-- Single store of one pixel into a flat buffer. -/
def dwrite (d : PixMap) (idx : Nat) (v : ppm_pixel) : PixMap :=
  fun k => if k = idx then v else d k

/-- Data effect of `update_image` (lines 62-76): copy pixel (i,j) of the
contour tile to flat offset `(x+i)*Y + (y+j)`, for all i below the tile's
width and j below the tile's height; `Y` is the destination image's `y`
field, which never changes during the call. -/
def upd_data (Y : Nat) (contour : ppm_image) (x y : Nat) (d : PixMap) : PixMap :=
  forRange
    (fun i d =>
      forRange
        (fun j d => dwrite d ((x + i) * Y + (y + j)) (contour.data (contour.x * i + j)))
        0 contour.y d)
    0 contour.x d

/-- The embedding of `update_image` (lines 62-76 of tema1_par.c). -/
def update_image (image contour : ppm_image) (x y : Nat) : ppm_image :=
  { image with data := upd_data image.y contour x y image.data }

/-- Configuration index of lines 170:
`8*grid[i][j] + 4*grid[i][j+1] + 2*grid[i+1][j+1] + 1*grid[i+1][j]`,
computed in `int` and stored in an `unsigned char`. -/
def kval (grid : Grid) (i j : Nat) : Nat :=
  (8 * grid i j + 4 * grid i (j + 1) + 2 * grid (i + 1) (j + 1) + 1 * grid (i + 1) j) % 256

/-- Data effect of one row of the march loop (lines 166-173): for every
column j below q, stamp the tile selected by the configuration index at
pixel offset `(i*STEP, j*STEP)`. -/
def marchRow (Y : Nat) (grid : Grid) (contour_map : Nat → ppm_image) (i : Nat) (d : PixMap) : PixMap :=
  forRange
    (fun j d => upd_data Y (contour_map (kval grid i j)) (i * STEP) (j * STEP) d)
    0 (Y / STEP) d

/-- One worker's body of `march` (lines 158-174): rows of its partition,
all q columns each. -/
def march (image : ppm_image) (grid : Grid) (contour_map : Nat → ppm_image)
    (thread_id N : Nat) : ppm_image :=
  { image with
    data := forRange (marchRow image.y grid contour_map)
      (partStart (image.x / STEP) N thread_id)
      (partEnd (image.x / STEP) N thread_id - partStart (image.x / STEP) N thread_id)
      image.data }

/-- The compositing stage: all N workers run `march` on the shared image;
their row partitions are disjoint, so the stage is the fold of the
per-thread bodies in thread order (which visits rows in increasing
order exactly like a single sequential sweep). -/
def marchStage (image : ppm_image) (grid : Grid) (contour_map : Nat → ppm_image)
    (N : Nat) : ppm_image :=
  forRange (fun t im => march im grid contour_map t N) 0 N image

/-- Data effect of one row of the rescale loop (lines 207-218): every
pixel of row i of the target image is the bicubic sample of the source
at the normalized coordinates of (i, j).  `sample_bicubic` lives in the
external helpers collaborator, so the per-pixel sampler is a parameter of
the embedding; all that matters here is that it is a pure function of the
source image and the coordinates. -/
def rescaleRow (b : Bicubic) (src : ppm_image) (Y : Nat) (i : Nat) (d : PixMap) : PixMap :=
  forRange (fun j d => dwrite d (i * Y + j) (b src i j)) 0 Y d

/-- One worker's body of `rescale_image` (lines 196-222): the row range
`[t*(X/N), (t+1)*(X/N))` intersected with `[0, X)` via the loop guard
`i < end && i < new_image->x`. -/
def rescale_image (b : Bicubic) (src new_image : ppm_image) (thread_id N : Nat) : ppm_image :=
  { new_image with
    data := forRange (rescaleRow b src new_image.y)
      (partStart new_image.x N thread_id)
      (min (partEnd new_image.x N thread_id) new_image.x - partStart new_image.x N thread_id)
      new_image.data }

/-- The rescale stage: all N workers run `rescale_image` over the shared
target buffer; their row ranges are disjoint, so the stage is the fold of
the per-thread bodies in thread order. -/
def rescaleStage (b : Bicubic) (src new_image : ppm_image) (N : Nat) : ppm_image :=
  forRange (fun t im => rescale_image b src im t N) 0 N new_image

/-- The alias test of main (lines 311-320): no rescale happens when both
dimensions already fit the target bounds. -/
def noRescaleNeeded (image : ppm_image) : Bool :=
  decide (image.x ≤ RESCALE_X) && decide (image.y ≤ RESCALE_Y)

/-- Width of the working image handed to the sampler and compositor. -/
def scaledX (image : ppm_image) : Nat :=
  if noRescaleNeeded image then image.x else RESCALE_X

/-- Height of the working image handed to the sampler and compositor. -/
def scaledY (image : ppm_image) : Nat :=
  if noRescaleNeeded image then image.y else RESCALE_Y

/-- The working image: the source itself when it fits the target bounds
(main lines 312-316), else the freshly allocated RESCALE_X x RESCALE_Y
buffer (initial contents d0) filled by the rescale stage, which each
worker runs only in that case (apeleaza lines 250-253). -/
def workingImage (b : Bicubic) (image : ppm_image) (d0 : PixMap) (N : Nat) : ppm_image :=
  if noRescaleNeeded image then image
  else rescaleStage b image { x := RESCALE_X, y := RESCALE_Y, data := d0 } N

/-- The full pipeline run by the worker pool (apeleaza, lines 246-261):
conditional rescale, barrier, sampling stage, barrier, compositing
stage; the result is the working image as written back by `write_ppm`. -/
def pipeline (b : Bicubic) (image : ppm_image) (d0 : PixMap) (g0 : Grid)
    (contour_map : Nat → ppm_image) (N : Nat) : ppm_image :=
  marchStage (workingImage b image d0 N)
    (sampleStage (workingImage b image d0 N) g0 N) contour_map N

/-- An image struct as built by `allocate_rescale`: the pixel buffer
pointer may be null (`none`) when its malloc failed. -/
structure alloc_image where
  x : Nat
  y : Nat
  data : Option PixMap

/-- The embedding of `allocate_rescale` (lines 224-244 of tema1_par.c),
parameterized by the success of its two mallocs.  The first null check
(line 229) tests `new_image`; the second null check (line 238), placed
right after `new_image->data` is assigned, again tests `new_image` - not
`new_image->data` - so it mirrors the source exactly: it re-tests the
struct pointer, which is non-null on this path. -/
def allocate_rescale (struct_ok data_ok : Bool) : Except String alloc_image :=
  if struct_ok = false then Except.error "Unable to allocate memory"
  else
    if struct_ok = false then Except.error "Unable to allocate memory"
    else Except.ok
      { x := RESCALE_X, y := RESCALE_Y,
        data := if data_ok then some (fun _ => ⟨0, 0, 0⟩) else none }

/-- The argc guard of main (lines 289-293): with fewer than 4 argv
entries (program name plus 3 arguments) print the usage line and return
exit status 1; otherwise fall through to the pipeline. -/
def mainArgcCheck (argc : Nat) : Except (String × Nat) Unit :=
  if argc < 4 then Except.error ("Usage: ./tema1 <in_file> <out_file> <P>", 1)
  else Except.ok ()

/-- All-zero initial grid, standing for a zero-initialized allocation. -/
def gz : Grid := fun _ _ => 0

/-- All-black initial pixel buffer for witnesses. -/
def dz : PixMap := fun _ => ⟨0, 0, 0⟩

/-- A trivial bicubic sampler for witnesses (the pipeline theorems hold
for every sampler). -/
def bz : Bicubic := fun _ _ _ => ⟨0, 0, 0⟩

/-- A contour-tile table for witnesses: every tile is STEP x STEP. -/
def cmapz : Nat → ppm_image := fun _ => { x := 8, y := 8, data := fun _ => ⟨9, 8, 7⟩ }

/-- An 8x8 image with a single mid-intensity color, for witnesses. -/
def img8 : ppm_image := { x := 8, y := 8, data := fun _ => ⟨120, 30, 60⟩ }

/-- The all-white 16x16 image of the spec's concrete scenario. -/
def whiteImage16 : ppm_image := { x := 16, y := 16, data := fun _ => ⟨255, 255, 255⟩ }

/-- A non-square 8x16 image whose true last pixel column (column 15) is
white while the pixel the code actually reads for the right-edge grid
cells (in-row offset x-1 = 7) is black. -/
def imgC3 : ppm_image :=
  { x := 8, y := 16,
    data := fun idx => if idx = 15 then ⟨255, 255, 255⟩ else ⟨0, 0, 0⟩ }

theorem forRange_zero (f : Nat → α → α) (s : Nat) (a : α) :
    forRange f s 0 a = a := rfl

theorem forRange_succ (f : Nat → α → α) (s n : Nat) (a : α) :
    forRange f s (n + 1) a = forRange f (s + 1) n (f s a) := rfl

theorem forRange_add (f : Nat → α → α) (m : Nat) :
    ∀ (s n : Nat) (a : α),
      forRange f s (m + n) a = forRange f (s + m) n (forRange f s m a) := by
  induction m with
  | zero => intro s n a; simp [forRange_zero]
  | succ m ih =>
      intro s n a
      have h1 : m + 1 + n = (m + n) + 1 := by omega
      rw [h1, forRange_succ, ih (s + 1) n (f s a), ← forRange_succ]
      congr 1
      omega

theorem forRange_succ_last (f : Nat → α → α) (s n : Nat) (a : α) :
    forRange f s (n + 1) a = f (s + n) (forRange f s n a) := by
  have h := forRange_add f n s 1 a
  simpa [forRange] using h

/-- Concatenating N consecutive blocks of length d gives one loop over
`[0, N*d)`. -/
theorem forRange_blocks (f : Nat → α → α) (d : Nat) :
    ∀ (N : Nat) (a : α),
      forRange (fun t b => forRange f (t * d) d b) 0 N a =
        forRange f 0 (N * d) a := by
  intro N
  induction N with
  | zero => intro a; simp [forRange_zero]
  | succ N ih =>
      intro a
      rw [forRange_succ_last, ih, Nat.succ_mul, forRange_add f (N * d) 0 d a]
      simp

theorem forRange_congr (f g : Nat → α → α) :
    ∀ (n s : Nat) (a : α),
      (∀ i b, s ≤ i → i < s + n → f i b = g i b) →
      forRange f s n a = forRange g s n a := by
  intro n
  induction n with
  | zero => intro s a _; rfl
  | succ n ih =>
      intro s a h
      rw [forRange_succ, forRange_succ, h s a (Nat.le_refl s) (by omega)]
      exact ih (s + 1) (g s a) (fun i b h1 h2 => h i b (by omega) (by omega))

/-- An observation untouched by every step of a loop is untouched by the
whole loop. -/
theorem forRange_pres (obs : α → β) (f : Nat → α → α) :
    ∀ (n s : Nat) (a : α),
      (∀ i b, s ≤ i → i < s + n → obs (f i b) = obs b) →
      obs (forRange f s n a) = obs a := by
  intro n
  induction n with
  | zero => intro s a _; rfl
  | succ n ih =>
      intro s a h
      rw [forRange_succ]
      rw [ih (s + 1) (f s a) (fun i b h1 h2 => h i b (by omega) (by omega))]
      exact h s a (Nat.le_refl s) (by omega)

theorem part_count (e N t : Nat) : partEnd e N t - partStart e N t = e / N := by
  simp [partStart, partEnd, Nat.succ_mul]

theorem part_start_add (e N t : Nat) :
    partStart e N t + e / N = partEnd e N t := by
  simp [partStart, partEnd, Nat.succ_mul]

theorem threshold_le_one (px : ppm_pixel) : threshold px ≤ 1 := by
  unfold threshold; split <;> omega

theorem threshold_eq_avg3 (px : ppm_pixel) (h : chOk px) :
    threshold px = if avg3 px ≤ SIGMA then 1 else 0 := by
  obtain ⟨h1, h2, h3⟩ := h
  have hs : px.red + px.green + px.blue ≤ 765 := by omega
  have hd : (px.red + px.green + px.blue) / 3 ≤ 255 := by omega
  unfold threshold pixel_avg avg3 SIGMA
  rw [Nat.mod_eq_of_lt (by omega)]
  split <;> split <;> omega

theorem gwrite_apply (g : Grid) (i j v a b : Nat) :
    gwrite g i j v a b = if a = i ∧ b = j then v else g a b := rfl

theorem forRange_writeRow (r : Nat) (v : Nat → Nat) :
    ∀ (n s : Nat) (g : Grid) (a b : Nat),
      forRange (fun j g => gwrite g r j (v j)) s n g a b =
        if a = r ∧ s ≤ b ∧ b < s + n then v b else g a b := by
  intro n
  induction n with
  | zero =>
      intro s g a b
      rw [forRange_zero]
      have : ¬(a = r ∧ s ≤ b ∧ b < s + 0) := by omega
      rw [if_neg this]
  | succ n ih =>
      intro s g a b
      rw [forRange_succ, ih]
      unfold gwrite
      split_ifs <;> first | rfl | omega | simp_all

theorem forRange_writeCol (c : Nat) (v : Nat → Nat) :
    ∀ (n s : Nat) (g : Grid) (a b : Nat),
      forRange (fun i g => gwrite g i c (v i)) s n g a b =
        if b = c ∧ s ≤ a ∧ a < s + n then v a else g a b := by
  intro n
  induction n with
  | zero =>
      intro s g a b
      rw [forRange_zero]
      have : ¬(b = c ∧ s ≤ a ∧ a < s + 0) := by omega
      rw [if_neg this]
  | succ n ih =>
      intro s g a b
      rw [forRange_succ, ih]
      unfold gwrite
      split_ifs <;> first | rfl | omega | simp_all

theorem forRange_writeBlock (q : Nat) (w : Nat → Nat → Nat) :
    ∀ (n s : Nat) (g : Grid) (a b : Nat),
      forRange (fun i g => forRange (fun j g => gwrite g i j (w i j)) 0 q g) s n g a b =
        if s ≤ a ∧ a < s + n ∧ b < q then w a b else g a b := by
  intro n
  induction n with
  | zero =>
      intro s g a b
      rw [forRange_zero]
      have : ¬(s ≤ a ∧ a < s + 0 ∧ b < q) := by omega
      rw [if_neg this]
  | succ n ih =>
      intro s g a b
      rw [forRange_succ, ih, forRange_writeRow]
      split_ifs <;> first | rfl | omega | simp_all

/-- Pointwise effect of one worker's `sample_grid` body, assuming the
worker's ranges stay inside the grid (true for every thread id below N). -/
theorem sample_grid_pt (image : ppm_image) (g : Grid) (t N a b : Nat)
    (hp : partEnd (image.x / STEP) N t ≤ image.x / STEP)
    (hq : partEnd (image.y / STEP) N t ≤ image.y / STEP) :
    sample_grid image g t N a b =
      if a = image.x / STEP ∧ b = image.y / STEP then 0
      else if a = image.x / STEP ∧ partStart (image.y / STEP) N t ≤ b ∧
          b < partEnd (image.y / STEP) N t then bottomVal image b
      else if partStart (image.x / STEP) N t ≤ a ∧ a < partEnd (image.x / STEP) N t ∧
          b = image.y / STEP then rightVal image a
      else if partStart (image.x / STEP) N t ≤ a ∧ a < partEnd (image.x / STEP) N t ∧
          b < image.y / STEP then interiorVal image a b
      else g a b := by
  unfold sample_grid
  rw [forRange_writeRow, forRange_writeCol, gwrite_apply, forRange_writeBlock]
  simp only [part_count, part_start_add]
  split_ifs <;> first | rfl | omega

/-- Pointwise value of the grid after the first n workers have run the
sampling stage. -/
theorem sampleStage_upto (image : ppm_image) (g0 : Grid) (N : Nat) :
    ∀ n, n ≤ N → ∀ a b,
      forRange (fun t g => sample_grid image g t N) 0 n g0 a b =
        if 1 ≤ n ∧ a = image.x / STEP ∧ b = image.y / STEP then 0
        else if a = image.x / STEP ∧ b < n * (image.y / STEP / N) then bottomVal image b
        else if a < n * (image.x / STEP / N) ∧ b = image.y / STEP then rightVal image a
        else if a < n * (image.x / STEP / N) ∧ b < image.y / STEP then interiorVal image a b
        else g0 a b := by
  intro n
  induction n with
  | zero =>
      intro _ a b
      rw [forRange_zero]
      simp
  | succ n ih =>
      intro hn a b
      have h2x : N * (image.x / STEP / N) ≤ image.x / STEP := by
        rw [Nat.mul_comm]; exact Nat.div_mul_le_self _ _
      have h2y : N * (image.y / STEP / N) ≤ image.y / STEP := by
        rw [Nat.mul_comm]; exact Nat.div_mul_le_self _ _
      have hp : partEnd (image.x / STEP) N n ≤ image.x / STEP := by
        unfold partEnd
        exact Nat.le_trans (Nat.mul_le_mul_right _ hn) h2x
      have hq : partEnd (image.y / STEP) N n ≤ image.y / STEP := by
        unfold partEnd
        exact Nat.le_trans (Nat.mul_le_mul_right _ hn) h2y
      rw [forRange_succ_last]
      simp only [Nat.zero_add]
      rw [sample_grid_pt image (forRange (fun t g => sample_grid image g t N) 0 n g0) n N a b hp hq,
        ih (by omega)]
      simp only [partStart, partEnd, Nat.succ_mul] at hp hq ⊢
      clear h2x h2y ih hn
      revert hp hq
      generalize image.x / STEP = px
      generalize image.y / STEP = qy
      generalize px / N = dx
      generalize qy / N = dy
      intro hp hq
      split_ifs <;> first | rfl | omega

/-- Pointwise value of the grid after the full sampling stage: the corner
is 0, the bottom edge and right edge hold the thresholded boundary
pixels over the covered ranges, covered interior cells hold the
thresholded sample pixels, and every other cell keeps its prior value. -/
theorem sampleStage_eval (image : ppm_image) (g0 : Grid) (N : Nat) (hN : 1 ≤ N) (a b : Nat) :
    sampleStage image g0 N a b =
      if a = image.x / STEP ∧ b = image.y / STEP then 0
      else if a = image.x / STEP ∧ b < N * (image.y / STEP / N) then bottomVal image b
      else if a < N * (image.x / STEP / N) ∧ b = image.y / STEP then rightVal image a
      else if a < N * (image.x / STEP / N) ∧ b < image.y / STEP then interiorVal image a b
      else g0 a b := by
  unfold sampleStage
  rw [sampleStage_upto image g0 N N (Nat.le_refl N) a b]
  split_ifs <;> first | rfl | omega

theorem dwrite_at (d : PixMap) (idx : Nat) (v : ppm_pixel) :
    dwrite d idx v idx = v := by simp [dwrite]

theorem dwrite_ne (d : PixMap) (idx : Nat) (v : ppm_pixel) (k : Nat) (h : k ≠ idx) :
    dwrite d idx v k = d k := by simp [dwrite, h]

/-- A stage whose per-thread body only rewrites the data field is the
data-level fold of the per-thread data transformations. -/
theorem forRange_stage (f : Nat → ppm_image → ppm_image)
    (F : Nat → PixMap → PixMap) (X Y : Nat) :
    ∀ (n s : Nat) (im : ppm_image),
      (∀ t b, b.x = X → b.y = Y → f t b = { b with data := F t b.data }) →
      im.x = X → im.y = Y →
      forRange f s n im = { im with data := forRange F s n im.data } := by
  intro n
  induction n with
  | zero => intro s im _ _ _; rfl
  | succ n ih =>
      intro s im hf hx hy
      rw [forRange_succ, forRange_succ, hf s im hx hy]
      exact ih (s + 1) { im with data := F s im.data } hf hx hy

theorem march_data (image : ppm_image) (grid : Grid) (contour_map : Nat → ppm_image)
    (t N : Nat) :
    march image grid contour_map t N =
      { image with
        data := forRange (marchRow image.y grid contour_map)
          (partStart (image.x / STEP) N t) (image.x / STEP / N) image.data } := by
  unfold march
  rw [part_count]

/-- The whole compositing stage is the single sequential sweep of
`marchRow` over rows `[0, N * (p/N))`; in particular, once N divides p
the sweep is over all of `[0, p)` independently of N. -/
theorem marchStage_seq (image : ppm_image) (grid : Grid) (contour_map : Nat → ppm_image)
    (N : Nat) :
    marchStage image grid contour_map N =
      { image with
        data := forRange (marchRow image.y grid contour_map) 0
          (N * (image.x / STEP / N)) image.data } := by
  unfold marchStage
  rw [forRange_stage (fun t im => march im grid contour_map t N)
    (fun t d => forRange (marchRow image.y grid contour_map)
      (partStart (image.x / STEP) N t) (image.x / STEP / N) d)
    image.x image.y N 0 image ?_ rfl rfl]
  · rw [forRange_congr
      (fun t d => forRange (marchRow image.y grid contour_map)
        (partStart (image.x / STEP) N t) (image.x / STEP / N) d)
      (fun t d => forRange (marchRow image.y grid contour_map)
        (t * (image.x / STEP / N)) (image.x / STEP / N) d)
      N 0 image.data (fun i d _ _ => rfl)]
    exact congrArg (fun d => { x := image.x, y := image.y, data := d : ppm_image })
      (forRange_blocks (marchRow image.y grid contour_map) (image.x / STEP / N) N image.data)
  · intro t b hx hy
    show march b grid contour_map t N =
      { b with data := (forRange (marchRow image.y grid contour_map)
          (partStart (image.x / STEP) N t) (image.x / STEP / N) b.data) }
    rw [march_data, hx, hy]

/-- Row-major flat indices are injective in (row, column) as long as the
column stays below the row length. -/
theorem index_inj (Y a1 b1 a2 b2 : Nat) (h1 : b1 < Y) (h2 : b2 < Y)
    (h : a1 * Y + b1 = a2 * Y + b2) : a1 = a2 ∧ b1 = b2 := by
  have hY : 0 < Y := by omega
  have e1 : (a1 * Y + b1) / Y = a1 := by
    rw [Nat.add_comm, Nat.add_mul_div_right _ _ hY, Nat.div_eq_of_lt h1, Nat.zero_add]
  have e2 : (a2 * Y + b2) / Y = a2 := by
    rw [Nat.add_comm, Nat.add_mul_div_right _ _ hY, Nat.div_eq_of_lt h2, Nat.zero_add]
  have ha : a1 = a2 := by rw [← e1, ← e2, h]
  subst ha
  exact ⟨rfl, by omega⟩

/-- Splitting a loop from 0 after its first m iterations. -/
theorem forRange_split (f : Nat → α → α) (m n : Nat) (h : m ≤ n) (a : α) :
    forRange f 0 n a = forRange f (0 + m) (n - m) (forRange f 0 m a) := by
  rw [← forRange_add]
  congr 1
  omega

theorem forRange_app_pres (f : Nat → PixMap → PixMap) (K : Nat) :
    ∀ (n s : Nat) (d : PixMap),
      (∀ r e, s ≤ r → r < s + n → f r e K = e K) →
      forRange f s n d K = d K := by
  intro n s d h
  exact forRange_pres (fun d => d K) f n s d h

/-- A tile stamp leaves untouched every flat index it does not write. -/
theorem upd_data_ne (Y : Nat) (c : ppm_image) (x y : Nat) (d : PixMap) (K : Nat)
    (h : ∀ i j, i < c.x → j < c.y → (x + i) * Y + (y + j) ≠ K) :
    upd_data Y c x y d K = d K := by
  unfold upd_data
  refine forRange_app_pres _ K c.x 0 d ?_
  intro i e hi1 hi2
  refine forRange_app_pres _ K c.y 0 e ?_
  intro j e2 hj1 hj2
  exact dwrite_ne _ _ _ _ (fun he => h i j (by omega) (by omega) he.symm)

/-- Evaluation of one row of writes of a tile stamp. -/
theorem forRange_pixrow (v : Nat → ppm_pixel) (base : Nat) :
    ∀ (n s : Nat) (d : PixMap) (K : Nat),
      forRange (fun j d => dwrite d (base + j) (v j)) s n d K =
        if base ≤ K ∧ s ≤ K - base ∧ K - base < s + n then v (K - base) else d K := by
  intro n
  induction n with
  | zero =>
      intro s d K
      rw [forRange_zero]
      have : ¬(base ≤ K ∧ s ≤ K - base ∧ K - base < s + 0) := by omega
      rw [if_neg this]
  | succ n ih =>
      intro s d K
      rw [forRange_succ, ih]
      unfold dwrite
      split_ifs <;> first | rfl | omega | (congr 1; omega)

/-- Reading back exactly the pixel written by a tile stamp. -/
theorem upd_data_at (Y : Nat) (c : ppm_image) (x y : Nat) (d : PixMap)
    (i j : Nat) (hi : i < c.x) (hj : j < c.y) (hY : y + c.y ≤ Y) :
    upd_data Y c x y d ((x + i) * Y + (y + j)) = c.data (c.x * i + j) := by
  unfold upd_data
  rw [forRange_split _ (i + 1) c.x hi]
  rw [forRange_app_pres _ _ (c.x - (i + 1)) (0 + (i + 1)) _ ?_]
  · rw [forRange_succ_last]
    simp only [Nat.zero_add]
    rw [forRange_congr
        (fun j2 d => dwrite d ((x + i) * Y + (y + j2)) (c.data (c.x * i + j2)))
        (fun j2 d => dwrite d (((x + i) * Y + y) + j2) (c.data (c.x * i + j2)))
        c.y 0 _ (fun j2 d _ _ => by
          show dwrite d ((x + i) * Y + (y + j2)) (c.data (c.x * i + j2)) =
            dwrite d (((x + i) * Y + y) + j2) (c.data (c.x * i + j2))
          rw [Nat.add_assoc])]
    rw [forRange_pixrow]
    have hcond : (x + i) * Y + y ≤ (x + i) * Y + (y + j) ∧
        0 ≤ (x + i) * Y + (y + j) - ((x + i) * Y + y) ∧
        (x + i) * Y + (y + j) - ((x + i) * Y + y) < 0 + c.y := by omega
    rw [if_pos hcond]
    have hKb : (x + i) * Y + (y + j) - ((x + i) * Y + y) = j := by omega
    rw [hKb]
  · intro r e hr1 hr2
    refine forRange_app_pres _ _ c.y 0 e ?_
    intro j2 e2 hj1 hj2
    refine dwrite_ne _ _ _ _ (fun he => ?_)
    have hc1 : y + j < Y := by omega
    have hc2 : y + j2 < Y := by omega
    have := index_inj Y (x + i) (y + j) (x + r) (y + j2) hc1 hc2 he
    omega

theorem row_block_le (Y j : Nat) (hj : j < Y / STEP) : j * STEP + STEP ≤ Y := by
  have h1 : (j + 1) * STEP ≤ (Y / STEP) * STEP := Nat.mul_le_mul_right _ hj
  have h2 : (Y / STEP) * STEP ≤ Y := Nat.div_mul_le_self Y STEP
  have h3 : (j + 1) * STEP = j * STEP + STEP := Nat.succ_mul j STEP
  omega

theorem col_lt (Y j j2 : Nat) (hj : j < Y / STEP) (hj2 : j2 < STEP) :
    j * STEP + j2 < Y := by
  have := row_block_le Y j hj
  omega

theorem marchRow_ne (Y : Nat) (grid : Grid) (contour_map : Nat → ppm_image)
    (r : Nat) (d : PixMap) (K : Nat)
    (h : ∀ b, b < Y / STEP → ∀ s u, s < (contour_map (kval grid r b)).x →
      u < (contour_map (kval grid r b)).y →
      (r * STEP + s) * Y + (b * STEP + u) ≠ K) :
    marchRow Y grid contour_map r d K = d K := by
  unfold marchRow
  refine forRange_app_pres _ K (Y / STEP) 0 d ?_
  intro b e hb1 hb2
  exact upd_data_ne Y _ (r * STEP) (b * STEP) e K
    (fun s u hs hu => h b (by omega) s u hs hu)

/-- Pointwise value of the output image after the compositing stage: for
any covered cell (i,j) and any in-tile coordinate, the final pixel is the
corresponding pixel of the tile selected by that cell's configuration
index, provided every selected tile has the STEP x STEP footprint. -/
theorem marchStage_eval (image : ppm_image) (grid : Grid)
    (contour_map : Nat → ppm_image) (N i j i2 j2 : Nat)
    (hi : i < N * (image.x / STEP / N)) (hj : j < image.y / STEP)
    (hi2 : i2 < STEP) (hj2 : j2 < STEP)
    (hsz : ∀ a b, a < N * (image.x / STEP / N) → b < image.y / STEP →
      (contour_map (kval grid a b)).x = STEP ∧ (contour_map (kval grid a b)).y = STEP) :
    (marchStage image grid contour_map N).data
        ((i * STEP + i2) * image.y + (j * STEP + j2)) =
      (contour_map (kval grid i j)).data (STEP * i2 + j2) := by
  rw [marchStage_seq]
  dsimp only
  rw [forRange_split (marchRow image.y grid contour_map) (i + 1)
    (N * (image.x / STEP / N)) hi]
  rw [forRange_app_pres _ _ (N * (image.x / STEP / N) - (i + 1)) (0 + (i + 1)) _ ?_]
  · rw [forRange_succ_last]
    simp only [Nat.zero_add]
    unfold marchRow
    rw [forRange_split _ (j + 1) (image.y / STEP) hj]
    rw [forRange_app_pres _ _ (image.y / STEP - (j + 1)) (0 + (j + 1)) _ ?_]
    · rw [forRange_succ_last]
      simp only [Nat.zero_add]
      have hd := hsz i j hi hj
      rw [upd_data_at image.y (contour_map (kval grid i j)) (i * STEP) (j * STEP) _ i2 j2
        (by rw [hd.1]; exact hi2) (by rw [hd.2]; exact hj2)
        (by rw [hd.2]; exact row_block_le image.y j hj)]
      rw [hd.1]
    · intro b e hb1 hb2
      refine upd_data_ne _ _ _ _ _ _ (fun s u hs hu heq => ?_)
      have hd := hsz i b hi (by omega)
      rw [hd.1] at hs
      rw [hd.2] at hu
      have hc1 : b * STEP + u < image.y := col_lt _ _ _ (by omega) hu
      have hc2 : j * STEP + j2 < image.y := col_lt _ _ _ hj hj2
      have hinj := index_inj image.y (i * STEP + s) (b * STEP + u)
        (i * STEP + i2) (j * STEP + j2) hc1 hc2 heq
      have hcol := index_inj STEP b u j j2 hu hj2 hinj.2
      omega
  · intro r e hr1 hr2
    refine marchRow_ne _ _ _ _ _ _ (fun b hb s u hs hu heq => ?_)
    have hd := hsz r b (by omega) hb
    rw [hd.1] at hs
    rw [hd.2] at hu
    have hc1 : b * STEP + u < image.y := col_lt _ _ _ hb hu
    have hc2 : j * STEP + j2 < image.y := col_lt _ _ _ hj hj2
    have hinj := index_inj image.y (r * STEP + s) (b * STEP + u)
      (i * STEP + i2) (j * STEP + j2) hc1 hc2 heq
    have hrow := index_inj STEP r s i i2 hs hi2 hinj.1
    omega

theorem rescaleStage_x (b : Bicubic) (src new_image : ppm_image) (N : Nat) :
    (rescaleStage b src new_image N).x = new_image.x := by
  unfold rescaleStage
  refine forRange_pres (fun im => im.x) (fun t im => rescale_image b src im t N)
    N 0 new_image ?_
  intro t e _ _
  rfl

theorem rescaleStage_y (b : Bicubic) (src new_image : ppm_image) (N : Nat) :
    (rescaleStage b src new_image N).y = new_image.y := by
  unfold rescaleStage
  refine forRange_pres (fun im => im.y) (fun t im => rescale_image b src im t N)
    N 0 new_image ?_
  intro t e _ _
  rfl

/-- When N divides the target row count, the rescale stage is the single
sequential sweep of `rescaleRow` over all rows, independently of N. -/
theorem rescaleStage_seq (b : Bicubic) (src new_image : ppm_image) (N : Nat)
    (hdvd : N ∣ new_image.x) :
    rescaleStage b src new_image N =
      { new_image with
        data := forRange (rescaleRow b src new_image.y) 0 new_image.x new_image.data } := by
  unfold rescaleStage
  rw [forRange_stage (fun t im => rescale_image b src im t N)
    (fun t d => forRange (rescaleRow b src new_image.y)
      (partStart new_image.x N t)
      (min (partEnd new_image.x N t) new_image.x - partStart new_image.x N t) d)
    new_image.x new_image.y N 0 new_image ?_ rfl rfl]
  · rw [forRange_congr
      (fun t d => forRange (rescaleRow b src new_image.y)
        (partStart new_image.x N t)
        (min (partEnd new_image.x N t) new_image.x - partStart new_image.x N t) d)
      (fun t d => forRange (rescaleRow b src new_image.y)
        (t * (new_image.x / N)) (new_image.x / N) d)
      N 0 new_image.data ?_]
    · rw [forRange_blocks, Nat.mul_div_cancel' hdvd]
    · intro t d ht1 ht2
      show forRange (rescaleRow b src new_image.y) (partStart new_image.x N t)
          (min (partEnd new_image.x N t) new_image.x - partStart new_image.x N t) d =
        forRange (rescaleRow b src new_image.y) (t * (new_image.x / N)) (new_image.x / N) d
      have hend : partEnd new_image.x N t ≤ new_image.x := by
        unfold partEnd
        calc (t + 1) * (new_image.x / N) ≤ N * (new_image.x / N) :=
              Nat.mul_le_mul_right _ (by omega)
          _ = new_image.x := Nat.mul_div_cancel' hdvd
      rw [Nat.min_eq_left hend, part_count]
      rfl
  · intro t e hx hy
    show rescale_image b src e t N =
      { e with data := (forRange (rescaleRow b src new_image.y)
          (partStart new_image.x N t)
          (min (partEnd new_image.x N t) new_image.x - partStart new_image.x N t) e.data) }
    unfold rescale_image
    rw [hx, hy]

theorem workingImage_x (b : Bicubic) (image : ppm_image) (d0 : PixMap) (N : Nat) :
    (workingImage b image d0 N).x = scaledX image := by
  unfold workingImage scaledX
  split
  · rfl
  · exact rescaleStage_x b image _ N

theorem workingImage_y (b : Bicubic) (image : ppm_image) (d0 : PixMap) (N : Nat) :
    (workingImage b image d0 N).y = scaledY image := by
  unfold workingImage scaledY
  split
  · rfl
  · exact rescaleStage_y b image _ N

/-- C4: for every extent e and worker count N >= 1, the per-stage
partition assigns worker t the half-open range [t*(e/N), (t+1)*(e/N))
with floor division; the ranges are pairwise disjoint, a point is in some
worker's range exactly when it is below N*(e/N), so when N divides e
every index below e is assigned to some (hence, by disjointness, exactly
one) worker, and when N does not divide e the final e - N*(e/N) indices
are assigned to no worker. -/
theorem partition_coverage (e N : Nat) (_hN : 1 ≤ N) :
    (∀ t1 t2 i, t1 ≠ t2 →
      ¬(partStart e N t1 ≤ i ∧ i < partEnd e N t1 ∧
        partStart e N t2 ≤ i ∧ i < partEnd e N t2))
    ∧ (∀ i, (∃ t, t < N ∧ partStart e N t ≤ i ∧ i < partEnd e N t) ↔ i < N * (e / N))
    ∧ (N ∣ e → ∀ i, i < e → ∃ t, t < N ∧ partStart e N t ≤ i ∧ i < partEnd e N t)
    ∧ (¬N ∣ e → ∀ i, N * (e / N) ≤ i → i < e →
        ∀ t, t < N → ¬(partStart e N t ≤ i ∧ i < partEnd e N t)) := by
  have hdis : ∀ t1 t2 i, t1 ≠ t2 →
      ¬(partStart e N t1 ≤ i ∧ i < partEnd e N t1 ∧
        partStart e N t2 ≤ i ∧ i < partEnd e N t2) := by
    intro t1 t2 i hne hmem
    obtain ⟨h1, h2, h3, h4⟩ := hmem
    simp only [partStart, partEnd] at h1 h2 h3 h4
    rcases Nat.lt_or_ge t1 t2 with h | h
    · have hle : (t1 + 1) * (e / N) ≤ t2 * (e / N) := Nat.mul_le_mul_right _ (by omega)
      omega
    · have ht : t2 < t1 := by omega
      have hle : (t2 + 1) * (e / N) ≤ t1 * (e / N) := Nat.mul_le_mul_right _ (by omega)
      omega
  have hcov : ∀ i, (∃ t, t < N ∧ partStart e N t ≤ i ∧ i < partEnd e N t) ↔
      i < N * (e / N) := by
    intro i
    constructor
    · rintro ⟨t, ht, h1, h2⟩
      simp only [partStart, partEnd] at h1 h2
      have hle : (t + 1) * (e / N) ≤ N * (e / N) := Nat.mul_le_mul_right _ (by omega)
      omega
    · intro hi
      have hd : 0 < e / N := by
        rcases Nat.eq_zero_or_pos (e / N) with h0 | h0
        · rw [h0, Nat.mul_zero] at hi
          omega
        · exact h0
      refine ⟨i / (e / N), ?_, ?_, ?_⟩
      · exact (Nat.div_lt_iff_lt_mul hd).mpr (by omega)
      · exact Nat.div_mul_le_self i (e / N)
      · unfold partEnd
        have h1 := Nat.div_add_mod i (e / N)
        have h2 := Nat.mod_lt i hd
        have h3 : (i / (e / N) + 1) * (e / N) = i / (e / N) * (e / N) + e / N :=
          Nat.succ_mul _ _
        have h4 : e / N * (i / (e / N)) = i / (e / N) * (e / N) := Nat.mul_comm _ _
        omega
  refine ⟨hdis, hcov, ?_, ?_⟩
  · intro hdvd i hi
    refine (hcov i).mpr ?_
    rw [Nat.mul_div_cancel' hdvd]
    exact hi
  · intro hndvd i hge hlt t ht hmem
    have := (hcov i).mp ⟨t, ht, hmem.1, hmem.2⟩
    omega

theorem partition_coverage_witness :
    (1 ≤ 2) ∧
    (∃ t, t < 2 ∧ partStart 5 2 t ≤ 3 ∧ 3 < partEnd 5 2 t) ∧
    (¬(2 : Nat) ∣ 5 → ∀ i, 2 * (5 / 2) ≤ i → i < 5 →
        ∀ t, t < 2 → ¬(partStart 5 2 t ≤ i ∧ i < partEnd 5 2 t)) :=
  ⟨by decide,
    ((partition_coverage 5 2 (by decide)).2.1 3).mpr (by decide),
    (partition_coverage 5 2 (by decide)).2.2.2⟩

/-- C9: invoked with fewer than 3 program arguments the process prints
the usage message and exits with status 1 (nonzero) before any pipeline
work; with 3 or more arguments it proceeds past the check.  argc counts
the program name plus the arguments. -/
theorem argc_usage_check (nargs : Nat) :
    (nargs < 3 →
      mainArgcCheck (1 + nargs) =
        Except.error ("Usage: ./tema1 <in_file> <out_file> <P>", 1) ∧ (1 : Nat) ≠ 0)
    ∧ (3 ≤ nargs → mainArgcCheck (1 + nargs) = Except.ok ()) := by
  constructor
  · intro h
    refine ⟨?_, by omega⟩
    unfold mainArgcCheck
    rw [if_pos (by omega)]
  · intro h
    unfold mainArgcCheck
    rw [if_neg (by omega)]

theorem argc_usage_check_witness :
    (mainArgcCheck 3 =
      Except.error ("Usage: ./tema1 <in_file> <out_file> <P>", 1) ∧ (1 : Nat) ≠ 0)
    ∧ mainArgcCheck 4 = Except.ok () :=
  ⟨(argc_usage_check 2).1 (by decide), (argc_usage_check 3).2 (by decide)⟩

/-- C8 (code bug): when the struct malloc of `allocate_rescale` succeeds
but its pixel-buffer malloc fails, the function does NOT abort: the
second null check (line 238) re-tests `new_image` instead of
`new_image->data`, so the function returns normally with a null data
pointer, contradicting the claim that no code path continues past a
failed allocation. -/
theorem allocate_rescale_missed_check :
    allocate_rescale true false =
      Except.ok { x := 2048, y := 2048, data := none } := rfl

/-- C5: the working image is the source image itself exactly when both
source dimensions are at most 2048; in particular an image at exactly
the target resolution is left untouched (no rescale stage runs). -/
theorem working_image_alias (b : Bicubic) (image : ppm_image) (d0 : PixMap) (N : Nat) :
    (workingImage b image d0 N = image ↔
      image.x ≤ RESCALE_X ∧ image.y ≤ RESCALE_Y)
    ∧ (image.x = RESCALE_X → image.y = RESCALE_Y →
        workingImage b image d0 N = image) := by
  have hb : noRescaleNeeded image = true ↔
      image.x ≤ RESCALE_X ∧ image.y ≤ RESCALE_Y := by
    unfold noRescaleNeeded
    simp
  constructor
  · constructor
    · intro heq
      by_contra hc
      have hfalse : noRescaleNeeded image = false := by
        rcases Bool.eq_false_or_eq_true (noRescaleNeeded image) with h | h
        · exact absurd (hb.mp h) hc
        · exact h
      have hx := workingImage_x b image d0 N
      have hy := workingImage_y b image d0 N
      rw [heq] at hx hy
      unfold scaledX at hx
      unfold scaledY at hy
      rw [hfalse] at hx hy
      simp at hx hy
      exact hc ⟨Nat.le_of_eq hx, Nat.le_of_eq hy⟩
    · intro hxy
      unfold workingImage
      rw [if_pos (hb.mpr hxy)]
  · intro hx hy
    unfold workingImage
    rw [if_pos (hb.mpr ⟨Nat.le_of_eq hx, Nat.le_of_eq hy⟩)]

theorem working_image_alias_witness :
    workingImage bz img8 dz 1 = img8 :=
  (working_image_alias bz img8 dz 1).1.mpr (by decide)

/-- C1: for every working image, p = x/STEP and q = y/STEP, and every
interior sample point (i,j) with j < q whose row i lies in some worker's
partition, the full sampling stage leaves in grid[i][j] the value 1 when
the truncating integer channel average of the pixel at buffer offset
i*STEP*y + j*STEP is at most SIGMA = 200, and 0 when it exceeds 200. -/
theorem grid_sampler_interior (image : ppm_image) (g0 : Grid) (N i j : Nat)
    (hN : 1 ≤ N)
    (ht : ∃ t, t < N ∧ partStart (image.x / STEP) N t ≤ i ∧
      i < partEnd (image.x / STEP) N t)
    (hj : j < image.y / STEP)
    (hch : chOk (image.data (i * STEP * image.y + j * STEP))) :
    sampleStage image g0 N i j =
      if avg3 (image.data (i * STEP * image.y + j * STEP)) ≤ SIGMA then 1 else 0 := by
  obtain ⟨t, htN, h1, h2⟩ := ht
  simp only [partStart, partEnd] at h1 h2
  have hcov : i < N * (image.x / STEP / N) := by
    have hle : (t + 1) * (image.x / STEP / N) ≤ N * (image.x / STEP / N) :=
      Nat.mul_le_mul_right _ (by omega)
    omega
  have hple : N * (image.x / STEP / N) ≤ image.x / STEP := by
    rw [Nat.mul_comm]
    exact Nat.div_mul_le_self _ _
  rw [sampleStage_eval image g0 N hN i j]
  rw [if_neg (by omega), if_neg (by omega), if_neg (by omega), if_pos ⟨hcov, hj⟩]
  exact threshold_eq_avg3 _ hch

theorem grid_sampler_interior_witness :
    (1 ≤ 1 ∧ 0 < img8.y / STEP) ∧
    sampleStage img8 gz 1 0 0 =
      if avg3 (img8.data (0 * STEP * img8.y + 0 * STEP)) ≤ SIGMA then 1 else 0 :=
  ⟨⟨by decide, by decide⟩,
    grid_sampler_interior img8 gz 1 0 0 (by decide) ⟨0, by decide⟩ (by decide) (by decide)⟩

/-- C3 counterexample: for the non-square 8x16 image imgC3, one worker,
the right-edge grid cell (0, q) does not hold the threshold of the
image's true last pixel column (column y-1 = 15, which is white, so the
claim predicts 0): the sampler actually stores 1 because it reads the
pixel at in-row offset x-1 = 7, which is black. -/
theorem sampler_last_column_cex :
    ¬(sampleStage imgC3 gz 1 0 (imgC3.y / STEP) =
      if avg3 (imgC3.data (0 * STEP * imgC3.y + (imgC3.y - 1))) ≤ SIGMA
      then 1 else 0) := by
  decide

/-- C3 (amended): the sampler populates the last grid column (j = q) for
covered rows by thresholding the pixel at buffer offset
i*STEP*y + (x-1) - the in-row offset is the image's last ROW index x-1,
which coincides with the true last pixel column only for square images -
populates the last grid row (i = p) for covered columns by thresholding
the pixel at offset (x-1)*y + j*STEP on the image's true last pixel row,
and sets the corner cell grid[p][q] to 0 unconditionally. -/
theorem sampler_boundary_amended (image : ppm_image) (g0 : Grid) (N : Nat) (hN : 1 ≤ N) :
    (∀ i, i < N * (image.x / STEP / N) →
      chOk (image.data (i * STEP * image.y + image.x - 1)) →
      sampleStage image g0 N i (image.y / STEP) =
        if avg3 (image.data (i * STEP * image.y + image.x - 1)) ≤ SIGMA then 1 else 0)
    ∧ (∀ j, j < N * (image.y / STEP / N) →
      chOk (image.data ((image.x - 1) * image.y + j * STEP)) →
      sampleStage image g0 N (image.x / STEP) j =
        if avg3 (image.data ((image.x - 1) * image.y + j * STEP)) ≤ SIGMA then 1 else 0)
    ∧ sampleStage image g0 N (image.x / STEP) (image.y / STEP) = 0 := by
  have hplex : N * (image.x / STEP / N) ≤ image.x / STEP := by
    rw [Nat.mul_comm]
    exact Nat.div_mul_le_self _ _
  have hpley : N * (image.y / STEP / N) ≤ image.y / STEP := by
    rw [Nat.mul_comm]
    exact Nat.div_mul_le_self _ _
  refine ⟨?_, ?_, ?_⟩
  · intro i hi hch
    rw [sampleStage_eval image g0 N hN]
    rw [if_neg (by omega), if_neg (by omega), if_pos ⟨hi, rfl⟩]
    exact threshold_eq_avg3 _ hch
  · intro j hj hch
    rw [sampleStage_eval image g0 N hN]
    rw [if_neg (by omega), if_pos ⟨rfl, hj⟩]
    exact threshold_eq_avg3 _ hch
  · rw [sampleStage_eval image g0 N hN]
    rw [if_pos ⟨rfl, rfl⟩]

theorem sampler_boundary_amended_witness :
    (sampleStage imgC3 gz 1 0 (imgC3.y / STEP) =
      if avg3 (imgC3.data (0 * STEP * imgC3.y + imgC3.x - 1)) ≤ SIGMA then 1 else 0)
    ∧ (sampleStage imgC3 gz 1 (imgC3.x / STEP) 0 =
      if avg3 (imgC3.data ((imgC3.x - 1) * imgC3.y + 0 * STEP)) ≤ SIGMA then 1 else 0)
    ∧ sampleStage imgC3 gz 1 (imgC3.x / STEP) (imgC3.y / STEP) = 0 :=
  ⟨(sampler_boundary_amended imgC3 gz 1 (by decide)).1 0 (by decide) (by decide),
    (sampler_boundary_amended imgC3 gz 1 (by decide)).2.1 0 (by decide) (by decide),
    (sampler_boundary_amended imgC3 gz 1 (by decide)).2.2⟩

/-- C10: every grid cell is either untouched by the sampler or holds a
value in {0,1} (stated as <= 1); and over any grid whose entries are all
in {0,1}, the compositor's configuration index equals the plain weighted
corner sum (the unsigned char conversion never truncates) and is at most
15, so the 16-entry tile-table lookup is in bounds. -/
theorem grid_binary_and_kval (image : ppm_image) (g0 : Grid) (N : Nat) (hN : 1 ≤ N) :
    (∀ a b, sampleStage image g0 N a b = g0 a b ∨ sampleStage image g0 N a b ≤ 1)
    ∧ (∀ grid : Grid, (∀ a b, grid a b ≤ 1) → ∀ i j,
        kval grid i j =
          8 * grid i j + 4 * grid i (j + 1) + 2 * grid (i + 1) (j + 1) +
            1 * grid (i + 1) j ∧
        kval grid i j ≤ 15) := by
  constructor
  · intro a b
    rw [sampleStage_eval image g0 N hN]
    split_ifs
    · right; omega
    · right; exact threshold_le_one _
    · right; exact threshold_le_one _
    · right; exact threshold_le_one _
    · left; rfl
  · intro grid hg i j
    have h1 := hg i j
    have h2 := hg i (j + 1)
    have h3 := hg (i + 1) (j + 1)
    have h4 := hg (i + 1) j
    unfold kval
    constructor
    · exact Nat.mod_eq_of_lt (by omega)
    · rw [Nat.mod_eq_of_lt (by omega)]
      omega

theorem grid_binary_and_kval_witness :
    (sampleStage img8 gz 1 0 0 = gz 0 0 ∨ sampleStage img8 gz 1 0 0 ≤ 1) ∧
    (kval gz 0 0 = 8 * gz 0 0 + 4 * gz 0 1 + 2 * gz 1 1 + 1 * gz 1 0 ∧
      kval gz 0 0 ≤ 15) :=
  ⟨(grid_binary_and_kval img8 gz 1 (by decide)).1 0 0,
    (grid_binary_and_kval img8 gz 1 (by decide)).2 gz
      (fun a b => by simp [gz]) 0 0⟩

/-- C2: for every grid cell (i,j) with row i in some worker's partition
and j below q, the compositor computes
k = 8*grid[i][j] + 4*grid[i][j+1] + 2*grid[i+1][j+1] + 1*grid[i+1][j]
and copies every pixel of tile_table[k] into the working image starting
at pixel offset (i*STEP, j*STEP), overwriting the previous values in
place: after the stage, the pixel at flat offset
(i*STEP+i2)*y + (j*STEP+j2) is pixel (i2,j2) of that tile.  The grid is
binary (as the sampler produces) and the tiles have their conventional
STEP x STEP footprint. -/
theorem compositor_stamps (image : ppm_image) (grid : Grid)
    (contour_map : Nat → ppm_image) (N i j i2 j2 : Nat)
    (_hN : 1 ≤ N)
    (ht : ∃ t, t < N ∧ partStart (image.x / STEP) N t ≤ i ∧
      i < partEnd (image.x / STEP) N t)
    (hj : j < image.y / STEP)
    (hi2 : i2 < STEP) (hj2 : j2 < STEP)
    (hgrid : ∀ a b, a ≤ image.x / STEP → b ≤ image.y / STEP → grid a b ≤ 1)
    (hsz : ∀ m, m ≤ 15 → (contour_map m).x = STEP ∧ (contour_map m).y = STEP) :
    (marchStage image grid contour_map N).data
        ((i * STEP + i2) * image.y + (j * STEP + j2)) =
      (contour_map (8 * grid i j + 4 * grid i (j + 1) + 2 * grid (i + 1) (j + 1) +
        1 * grid (i + 1) j)).data (STEP * i2 + j2) := by
  obtain ⟨t, htN, h1, h2⟩ := ht
  simp only [partStart, partEnd] at h1 h2
  have hple : N * (image.x / STEP / N) ≤ image.x / STEP := by
    rw [Nat.mul_comm]
    exact Nat.div_mul_le_self _ _
  have hcov : i < N * (image.x / STEP / N) := by
    have hle : (t + 1) * (image.x / STEP / N) ≤ N * (image.x / STEP / N) :=
      Nat.mul_le_mul_right _ (by omega)
    omega
  have hkk : ∀ a b, a < N * (image.x / STEP / N) → b < image.y / STEP →
      kval grid a b =
        8 * grid a b + 4 * grid a (b + 1) + 2 * grid (a + 1) (b + 1) +
          1 * grid (a + 1) b := by
    intro a b ha hb
    have g1 := hgrid a b (by omega) (by omega)
    have g2 := hgrid a (b + 1) (by omega) (by omega)
    have g3 := hgrid (a + 1) (b + 1) (by omega) (by omega)
    have g4 := hgrid (a + 1) b (by omega) (by omega)
    unfold kval
    exact Nat.mod_eq_of_lt (by omega)
  have hk15 : ∀ a b, a < N * (image.x / STEP / N) → b < image.y / STEP →
      kval grid a b ≤ 15 := by
    intro a b ha hb
    have g1 := hgrid a b (by omega) (by omega)
    have g2 := hgrid a (b + 1) (by omega) (by omega)
    have g3 := hgrid (a + 1) (b + 1) (by omega) (by omega)
    have g4 := hgrid (a + 1) b (by omega) (by omega)
    rw [hkk a b ha hb]
    omega
  have hsz2 : ∀ a b, a < N * (image.x / STEP / N) → b < image.y / STEP →
      (contour_map (kval grid a b)).x = STEP ∧
      (contour_map (kval grid a b)).y = STEP := by
    intro a b ha hb
    exact hsz _ (hk15 a b ha hb)
  rw [marchStage_eval image grid contour_map N i j i2 j2 hcov hj hi2 hj2 hsz2]
  rw [hkk i j hcov hj]

theorem compositor_stamps_witness :
    (marchStage whiteImage16 gz cmapz 1).data
        ((0 * STEP + 0) * whiteImage16.y + (0 * STEP + 0)) =
      (cmapz (8 * gz 0 0 + 4 * gz 0 1 + 2 * gz 1 1 + 1 * gz 1 0)).data
        (STEP * 0 + 0) :=
  compositor_stamps whiteImage16 gz cmapz 1 0 0 0 0 (by decide) ⟨0, by decide⟩
    (by decide) (by decide) (by decide)
    (fun a b _ _ => by simp [gz]) (by decide)

/-- C7: for the all-white 16x16 image with STEP = 8 and SIGMA = 200 and
any worker count evenly dividing p = q = 2, the sampler produces an
all-zero grid (channel average 255 exceeds 200), and the final image
consists entirely of copies of tile_table[0] stamped over every
STEP x STEP cell. -/
theorem white16_scenario (b : Bicubic) (d0 : PixMap) (g0 : Grid)
    (contour_map : Nat → ppm_image) (N : Nat)
    (hN : 1 ≤ N) (hdvd : N ∣ 2)
    (hc0 : (contour_map 0).x = STEP ∧ (contour_map 0).y = STEP) :
    (∀ a c, a ≤ 2 → c ≤ 2 → sampleStage whiteImage16 g0 N a c = 0)
    ∧ (∀ i j i2 j2, i < 2 → j < 2 → i2 < 8 → j2 < 8 →
        (pipeline b whiteImage16 d0 g0 contour_map N).data
            ((i * 8 + i2) * 16 + (j * 8 + j2)) =
          (contour_map 0).data (8 * i2 + j2)) := by
  have wdata : ∀ k, whiteImage16.data k = (⟨255, 255, 255⟩ : ppm_pixel) := fun _ => rfl
  have t0 : threshold ⟨255, 255, 255⟩ = 0 := rfl
  have ex : whiteImage16.x / STEP = 2 := rfl
  have ey : whiteImage16.y / STEP = 2 := rfl
  have hNd : N * (2 / N) = 2 := Nat.mul_div_cancel' hdvd
  have hg0 : ∀ a c, a ≤ 2 → c ≤ 2 → sampleStage whiteImage16 g0 N a c = 0 := by
    intro a c ha hc
    rw [sampleStage_eval whiteImage16 g0 N hN, ex, ey, hNd]
    split_ifs <;>
      first
        | rfl
        | omega
        | (unfold bottomVal; rw [wdata]; exact t0)
        | (unfold rightVal; rw [wdata]; exact t0)
        | (unfold interiorVal; rw [wdata]; exact t0)
  refine ⟨hg0, ?_⟩
  intro i j i2 j2 hi hj hi2 hj2
  have hE2 : N * (whiteImage16.x / STEP / N) = 2 := by rw [ex, hNd]
  have hkv : ∀ a c, a < 2 → c < 2 →
      kval (sampleStage whiteImage16 g0 N) a c = 0 := by
    intro a c ha hc
    unfold kval
    rw [hg0 a c (by omega) (by omega), hg0 a (c + 1) (by omega) (by omega),
      hg0 (a + 1) (c + 1) (by omega) (by omega), hg0 (a + 1) c (by omega) (by omega)]
  have hw : workingImage b whiteImage16 d0 N = whiteImage16 := by
    unfold workingImage
    rw [if_pos (by decide : noRescaleNeeded whiteImage16 = true)]
  show (pipeline b whiteImage16 d0 g0 contour_map N).data
      ((i * STEP + i2) * whiteImage16.y + (j * STEP + j2)) =
    (contour_map 0).data (STEP * i2 + j2)
  unfold pipeline
  rw [hw]
  rw [marchStage_eval whiteImage16 (sampleStage whiteImage16 g0 N) contour_map N
    i j i2 j2 (by rw [hE2]; exact hi) (by rw [ey]; exact hj) hi2 hj2 ?_]
  · rw [hkv i j hi hj]
  · intro a c ha hc
    rw [hE2] at ha
    rw [ey] at hc
    rw [hkv a c ha hc]
    exact hc0

theorem white16_scenario_witness :
    sampleStage whiteImage16 gz 2 1 1 = 0 ∧
    (pipeline bz whiteImage16 dz gz cmapz 2).data ((1 * 8 + 3) * 16 + (1 * 8 + 4)) =
      (cmapz 0).data (8 * 3 + 4) :=
  ⟨(white16_scenario bz dz gz cmapz 2 (by decide) (by decide) (by decide)).1
      1 1 (by decide) (by decide),
    (white16_scenario bz dz gz cmapz 2 (by decide) (by decide) (by decide)).2
      1 1 3 4 (by decide) (by decide) (by decide) (by decide)⟩

/-- C6: for a fixed input image and any two worker counts N1, N2 (each
at least 1) that evenly divide the working image's grid extents p and q
and - when a rescale occurs - the rescale row count, the final image
produced by the full pipeline is identical under N1 and under N2. -/
theorem pipeline_thread_invariant (b : Bicubic) (image : ppm_image) (d0 : PixMap)
    (g0 : Grid) (contour_map : Nat → ppm_image) (N1 N2 : Nat)
    (h1 : 1 ≤ N1) (h2 : 1 ≤ N2)
    (hp1 : N1 ∣ scaledX image / STEP) (hq1 : N1 ∣ scaledY image / STEP)
    (hr1 : noRescaleNeeded image = false → N1 ∣ RESCALE_X)
    (hp2 : N2 ∣ scaledX image / STEP) (hq2 : N2 ∣ scaledY image / STEP)
    (hr2 : noRescaleNeeded image = false → N2 ∣ RESCALE_X) :
    pipeline b image d0 g0 contour_map N1 = pipeline b image d0 g0 contour_map N2 := by
  have hw : workingImage b image d0 N1 = workingImage b image d0 N2 := by
    unfold workingImage
    rcases Bool.eq_false_or_eq_true (noRescaleNeeded image) with hnr | hnr
    · simp only [hnr, if_true]
    · simp only [hnr, Bool.false_eq_true, if_false]
      rw [rescaleStage_seq b image _ N1 (hr1 hnr), rescaleStage_seq b image _ N2 (hr2 hnr)]
  have hx2 : (workingImage b image d0 N2).x = scaledX image := workingImage_x b image d0 N2
  have hy2 : (workingImage b image d0 N2).y = scaledY image := workingImage_y b image d0 N2
  have ex1 : N1 * ((workingImage b image d0 N2).x / STEP / N1) =
      (workingImage b image d0 N2).x / STEP := by
    rw [hx2]
    exact Nat.mul_div_cancel' hp1
  have ey1 : N1 * ((workingImage b image d0 N2).y / STEP / N1) =
      (workingImage b image d0 N2).y / STEP := by
    rw [hy2]
    exact Nat.mul_div_cancel' hq1
  have ex2 : N2 * ((workingImage b image d0 N2).x / STEP / N2) =
      (workingImage b image d0 N2).x / STEP := by
    rw [hx2]
    exact Nat.mul_div_cancel' hp2
  have ey2 : N2 * ((workingImage b image d0 N2).y / STEP / N2) =
      (workingImage b image d0 N2).y / STEP := by
    rw [hy2]
    exact Nat.mul_div_cancel' hq2
  unfold pipeline
  rw [hw]
  have hgrid : sampleStage (workingImage b image d0 N2) g0 N1 =
      sampleStage (workingImage b image d0 N2) g0 N2 := by
    funext a c
    rw [sampleStage_eval _ g0 N1 h1, sampleStage_eval _ g0 N2 h2, ex1, ey1, ex2, ey2]
  rw [hgrid, marchStage_seq, marchStage_seq, ex1, ex2]

theorem pipeline_thread_invariant_witness :
    pipeline bz whiteImage16 dz gz cmapz 1 = pipeline bz whiteImage16 dz gz cmapz 2 :=
  pipeline_thread_invariant bz whiteImage16 dz gz cmapz 1 2 (by decide) (by decide)
    (by decide) (by decide) (by decide) (by decide) (by decide) (by decide)

end Tema1
